import Mathlib

/-!
Verification development for the LLM Council Plus deliberation system.

The frontend components (`SearchContext.jsx`, `Settings.jsx`) are embedded
directly from their JavaScript source.  The backend modules (ranking
aggregation, ranking-text parsing, anonymization, hybrid search, batching)
are not part of the checked sources; where a property concerns them, the
relevant operation is modelled from the specification text, and each such
definition is marked `Modelled from the spec:` in its doc comment.

Strings are embedded as `List Char` (the `.data` of a JavaScript string);
JavaScript regular-expression behaviour is embedded as explicit scanning
functions over character lists, matching the leftmost-match and
greedy/lazy semantics of the concrete regexes that appear in the source.
-/

/-- Whitespace test embedding the JavaScript regex class `\s`
(restricted to the ASCII whitespace characters that can occur in the
search-context strings: space, tab, newline, carriage return, vertical
tab, form feed). -/
def isWs (c : Char) : Bool :=
  c = ' ' || c = '\t' || c = '\n' || c = '\r' || c = '\x0b' || c = '\x0c'

/-- JavaScript `String.prototype.trim` on a character list. -/
def jsTrim (cs : List Char) : List Char :=
  ((cs.dropWhile isWs).reverse.dropWhile isWs).reverse

/-- Consume an exact literal from the front of a character list, returning
the remainder, or `none` if the list does not start with the literal. -/
def dropLiteral : List Char → List Char → Option (List Char)
  | [], cs => some cs
  | _ :: _, [] => none
  | l :: ls, c :: cs => if c = l then dropLiteral ls cs else none

theorem dropLiteral_length {ls cs r : List Char}
    (h : dropLiteral ls cs = some r) : r.length + ls.length = cs.length := by
  induction ls generalizing cs with
  | nil => simp [dropLiteral] at h; simp [h]
  | cons l ls ih =>
    cases cs with
    | nil => simp [dropLiteral] at h
    | cons c cs =>
      simp only [dropLiteral] at h
      split at h
      · have := ih h
        simp [List.length_cons]
        omega
      · exact absurd h (by simp)

/-- `dropLiteral` with a nonempty literal returns a strictly shorter list. -/
theorem dropLiteral_length_lt {l : Char} {ls cs r : List Char}
    (h : dropLiteral (l :: ls) cs = some r) : r.length < cs.length := by
  have := dropLiteral_length h
  simp [List.length_cons] at this
  omega

/-! ### Embedding of `parseSearchResults` (frontend/src/components/SearchContext.jsx)

The JavaScript function splits its input on the regex `Result \d+:`, skips
blocks that trim to the empty string, and for each remaining block runs the
regexes `Title:\s*(.+)`, `URL:\s*(.+)`, `Source:\s*(.+)` and
`Summary:\s*([\s\S]*?)(?=\n\n|$)`, pushing an entry exactly when both the
title and the url regex match.  The functions below reproduce the
leftmost-match, greedy-`\s*`, line-bounded-`.` semantics of those regexes. -/

/-- Helper for the marker regex: after the greedy digit run, the next
character must be the colon. -/
def colonTail : List Char → Option (List Char)
  | [] => none
  | c :: r3 => if c = ':' then some r3 else none

theorem colonTail_length {l r : List Char} (h : colonTail l = some r) :
    r.length + 1 = l.length := by
  cases l with
  | nil => exact absurd h (by simp [colonTail])
  | cons c r3 =>
    simp only [colonTail] at h
    split at h
    · have : r3 = r := by injection h
      subst this; simp
    · exact absurd h (by simp)

/-- Match the regex `Result \d+:` at the head of the list (greedy digit run
followed by a colon); on success return the remainder after the match. -/
def matchResultMarker (cs : List Char) : Option (List Char) :=
  match dropLiteral ("Result ".data) cs with
  | none => none
  | some r1 =>
    if (r1.takeWhile Char.isDigit).isEmpty then none
    else colonTail (r1.dropWhile Char.isDigit)

theorem matchResultMarker_length_lt {cs r : List Char}
    (h : matchResultMarker cs = some r) : r.length < cs.length := by
  unfold matchResultMarker at h
  split at h
  · exact absurd h (by simp)
  next r1 hd =>
    have h1 : r1.length + ("Result ".data).length = cs.length := dropLiteral_length hd
    have h2 : (r1.dropWhile Char.isDigit).length ≤ r1.length :=
      (List.dropWhile_sublist _).length_le
    split at h
    · exact absurd h (by simp)
    · have h3 := colonTail_length h
      have h4 : (0:Nat) < ("Result ".data).length := by decide
      omega

/-- Embedding of `searchContext.split(/Result \d+:/)`: cut the input at
every match of the marker regex, scanning left to right. -/
def splitGo (acc : List Char) (cs : List Char) : List (List Char) :=
  match cs with
  | [] => [acc.reverse]
  | c :: cs' =>
    match h : matchResultMarker (c :: cs') with
    | some rest => acc.reverse :: splitGo [] rest
    | none => splitGo (c :: acc) cs'
termination_by cs.length
decreasing_by
  · exact matchResultMarker_length_lt h
  · simp

def splitResultBlocks (cs : List Char) : List (List Char) :=
  splitGo [] cs

/-- Tail of the regexes `Field:\s*(.+)` after the literal has matched:
greedy whitespace run, then a nonempty capture of non-newline characters,
with the backtracking JavaScript applies when the remainder is all
whitespace.  Returns the captured group. -/
def tailMatchDot (r : List Char) : Option (List Char) :=
  match r.dropWhile isWs with
  | [] =>
    match r.reverse.find? (fun c => c != '\n') with
    | some c => some [c]
    | none => none
  | c :: cs => some ((c :: cs).takeWhile (fun x => x != '\n'))

/-- Leftmost match of `lit` + `\s*(.+)` in a character list, returning the
captured group of the first position where the whole regex matches. -/
def searchDotField (lit : List Char) : List Char → Option (List Char)
  | [] => none
  | c :: cs =>
    match dropLiteral lit (c :: cs) with
    | some rest =>
      match tailMatchDot rest with
      | some cap => some cap
      | none => searchDotField lit cs
    | none => searchDotField lit cs

/-- Lazy capture of `([\s\S]*?)(?=\n\n|$)`: everything up to the first
blank line (two consecutive newlines) or the end of the input. -/
def takeUntilNN : List Char → List Char
  | [] => []
  | '\n' :: '\n' :: _ => []
  | c :: cs => c :: takeUntilNN cs

/-- Leftmost match of `Summary:\s*([\s\S]*?)(?=\n\n|$)`; once the literal
matches, the greedy `\s*` and the lazy capture always succeed. -/
def searchSummaryField : List Char → Option (List Char)
  | [] => none
  | c :: cs =>
    match dropLiteral ("Summary:".data) (c :: cs) with
    | some rest => some (takeUntilNN (rest.dropWhile isWs))
    | none => searchSummaryField cs

structure SearchResult where
  title : List Char
  url : List Char
  source : List Char
  summary : List Char
deriving DecidableEq

/-- The entry a single block contributes: present exactly when both the
title and the url regex match; a missing source or summary field becomes
the empty string; all stored fields are trimmed. -/
def mkBlockEntry (block : List Char) : Option SearchResult :=
  match searchDotField ("Title:".data) block, searchDotField ("URL:".data) block with
  | some t, some u =>
    some { title := jsTrim t
           url := jsTrim u
           source := Option.elim (searchDotField ("Source:".data) block) [] jsTrim
           summary := Option.elim (searchSummaryField block) [] jsTrim }
  | _, _ => none

/-- The JavaScript `for` loop: skip blocks that trim to empty, push an
entry when title and url both matched. -/
def parseLoop : List (List Char) → List SearchResult
  | [] => []
  | b :: bs =>
    if jsTrim b = [] then parseLoop bs
    else
      match mkBlockEntry b with
      | some e => e :: parseLoop bs
      | none => parseLoop bs

/-- Embedding of `parseSearchResults` (SearchContext.jsx, lines 8-33);
`none` stands for a null/undefined argument, and the falsiness test
`!searchContext` also catches the empty string. -/
def parseSearchResults : Option (List Char) → List SearchResult
  | none => []
  | some cs => if cs = [] then [] else parseLoop (splitResultBlocks cs)

theorem isWs_of_jsTrim_eq_nil {cs : List Char} (h : jsTrim cs = []) :
    ∀ c ∈ cs, isWs c := by
  intro c hc
  unfold jsTrim at h
  rw [List.reverse_eq_nil_iff, List.dropWhile_eq_nil_iff] at h
  have hsplit := List.takeWhile_append_dropWhile isWs cs
  rw [← hsplit] at hc
  rcases List.mem_append.mp hc with h1 | h2
  · exact List.mem_takeWhile_imp h1
  · exact h c (List.mem_reverse.mpr h2)

theorem searchDotField_mem {lit cs cap : List Char} {l : Char} {ls : List Char}
    (hlit : lit = l :: ls) (h : searchDotField lit cs = some cap) : l ∈ cs := by
  subst hlit
  induction cs with
  | nil => simp [searchDotField] at h
  | cons c cs ih =>
    by_cases hc : c = l
    · exact hc ▸ List.mem_cons_self _ _
    · simp only [searchDotField, dropLiteral, hc, if_false] at h
      exact List.mem_cons_of_mem _ (ih h)

theorem mkBlockEntry_of_trim_nil {b : List Char} (h : jsTrim b = []) :
    mkBlockEntry b = none := by
  have hws := isWs_of_jsTrim_eq_nil h
  cases ht : searchDotField ("Title:".data) b with
  | none => unfold mkBlockEntry; rw [ht]
  | some t =>
    have hmem : 'T' ∈ b := searchDotField_mem rfl ht
    have := hws 'T' hmem
    exact absurd this (by decide)

theorem parseLoop_eq_filterMap (bs : List (List Char)) :
    parseLoop bs = bs.filterMap mkBlockEntry := by
  induction bs with
  | nil => rfl
  | cons b bs ih =>
    by_cases hb : jsTrim b = []
    · simp [parseLoop, hb, List.filterMap_cons, mkBlockEntry_of_trim_nil hb, ih]
    · cases he : mkBlockEntry b with
      | some e => simp [parseLoop, hb, List.filterMap_cons, he, ih]
      | none => simp [parseLoop, hb, List.filterMap_cons, he, ih]

/-- C9: `parseSearchResults` is a total function that always returns a
(possibly empty) list: a null (`none`) or empty input yields `[]`; the
result is exactly one entry per block of the `Result N:` split for which
both the `Title:` and the `URL:` regex match (the skip of blocks that trim
to the empty string is subsumed, because such a block cannot match the
title regex); each produced entry stores the trimmed title and url
captures, and a missing `Source:` or `Summary:` field becomes the empty
string. -/
theorem parseSearchResults_correct :
    parseSearchResults none = [] ∧
    parseSearchResults (some []) = [] ∧
    (∀ cs, parseSearchResults (some cs) =
      (splitResultBlocks cs).filterMap mkBlockEntry) ∧
    (∀ b, (mkBlockEntry b).isSome ↔
      (searchDotField ("Title:".data) b).isSome ∧
      (searchDotField ("URL:".data) b).isSome) ∧
    (∀ b t u, searchDotField ("Title:".data) b = some t →
      searchDotField ("URL:".data) b = some u →
      mkBlockEntry b = some { title := jsTrim t
                              url := jsTrim u
                              source := Option.elim (searchDotField ("Source:".data) b) [] jsTrim
                              summary := Option.elim (searchSummaryField b) [] jsTrim }) := by
  refine ⟨rfl, rfl, ?_, ?_, ?_⟩
  · intro cs
    cases cs with
    | nil =>
      have h1 : splitResultBlocks [] = [[]] := by
        simp [splitResultBlocks, splitGo]
      have h2 : mkBlockEntry [] = none := rfl
      rw [h1]
      simp [parseSearchResults, List.filterMap_cons, h2]
    | cons c cs =>
      show parseLoop (splitResultBlocks (c :: cs)) = _
      exact parseLoop_eq_filterMap _
  · intro b
    unfold mkBlockEntry
    cases ht : searchDotField ("Title:".data) b with
    | none => simp
    | some t =>
      cases hu : searchDotField ("URL:".data) b with
      | none => simp
      | some u => simp
  · intro b t u ht hu
    unfold mkBlockEntry
    rw [ht, hu]

/-- Witness for C9: the final clause evaluated on a concrete block. -/
theorem parseSearchResults_correct_witness :
    mkBlockEntry ("Title: A\nURL: u".data) =
      some { title := "A".data, url := "u".data, source := [], summary := [] } := by
  have h := parseSearchResults_correct.2.2.2.2 ("Title: A\nURL: u".data)
    ("A".data) ("u".data) (by decide) (by decide)
  exact h.trans (by decide)

/-! ### Embedding of the API-key part of `handleSave` (Settings.jsx, lines 377-427)

`handleSave` builds an `updates` payload and adds each API-key field only
behind the guard `key && !key.startsWith('•')`; the backend settings store
then overwrites exactly the fields present in the payload. -/

inductive ApiKeyField
  | tavily
  | brave
  | openrouter
deriving DecidableEq

structure ApiKeyInputs where
  tavilyApiKey : List Char
  braveApiKey : List Char
  openrouterApiKey : List Char
deriving DecidableEq

/-- The guard `key && !key.startsWith('•')`: a non-empty input that does
not begin with the mask character. -/
def keyIncluded (s : List Char) : Bool :=
  !s.isEmpty && s.head? != some '•'

/-- The API-key entries of the `updates` payload, in the order the three
`if` statements push them. -/
def keyUpdates (inp : ApiKeyInputs) : List (ApiKeyField × List Char) :=
  (if keyIncluded inp.tavilyApiKey then [(ApiKeyField.tavily, inp.tavilyApiKey)] else []) ++
  (if keyIncluded inp.braveApiKey then [(ApiKeyField.brave, inp.braveApiKey)] else []) ++
  (if keyIncluded inp.openrouterApiKey then [(ApiKeyField.openrouter, inp.openrouterApiKey)] else [])

def inputOf (inp : ApiKeyInputs) : ApiKeyField → List Char
  | ApiKeyField.tavily => inp.tavilyApiKey
  | ApiKeyField.brave => inp.braveApiKey
  | ApiKeyField.openrouter => inp.openrouterApiKey

/-- Modelled from the spec: the settings persistence collaborator is
external to the checked sources ("credential/settings persistence ...
owned externally"); applying an update payload overwrites exactly the
fields present in it and keeps every other stored value. -/
def applyKeyUpdates (stored : ApiKeyField → List Char)
    (ups : List (ApiKeyField × List Char)) (f : ApiKeyField) : List Char :=
  match ups.find? (fun p => p.1 == f) with
  | some p => p.2
  | none => stored f

/-- C10: an API-key field is included in the save payload if and only if
its input state is non-empty and does not start with the mask character
'•'; a masked or empty input therefore leaves the stored key unchanged. -/
theorem apiKey_save_correct :
    (∀ inp f v, (f, v) ∈ keyUpdates inp ↔
      v = inputOf inp f ∧ keyIncluded (inputOf inp f) = true) ∧
    (∀ inp f, keyIncluded (inputOf inp f) = true ↔
      inputOf inp f ≠ [] ∧ (inputOf inp f).head? ≠ some '•') ∧
    (∀ inp stored f, (inputOf inp f = [] ∨ (inputOf inp f).head? = some '•') →
      applyKeyUpdates stored (keyUpdates inp) f = stored f) := by
  refine ⟨?_, ?_, ?_⟩
  · intro inp f v
    cases f <;>
      simp [keyUpdates, inputOf, List.mem_append, and_comm]
  · intro inp f
    simp [keyIncluded, List.isEmpty_iff]
  · intro inp stored f hmask
    have hexc : keyIncluded (inputOf inp f) = false := by
      rcases hmask with hm | hm <;> simp [keyIncluded, hm]
    cases f <;>
      · simp only [inputOf] at hexc
        simp [applyKeyUpdates, keyUpdates, hexc] <;>
        split_ifs <;> rfl

/-- Witness for C10: a masked tavily input leaves the stored tavily key
untouched. -/
theorem apiKey_save_correct_witness :
    applyKeyUpdates (fun _ => "old".data)
      (keyUpdates { tavilyApiKey := "•abc".data, braveApiKey := []
                    openrouterApiKey := "sk".data })
      ApiKeyField.tavily = "old".data :=
  apiKey_save_correct.2.2
    { tavilyApiKey := "•abc".data, braveApiKey := [], openrouterApiKey := "sk".data }
    (fun _ => "old".data) ApiKeyField.tavily (Or.inr (by decide))

/-! ### Council member list operations (Settings.jsx)

The remove button is rendered with `disabled={currentCouncilModels.length
<= 2}` (line 820) and removes the row's index via
`prev.filter((_, i) => i !== index)`; the add button with
`disabled={filteredModels.length === 0 || currentCouncilModels.length >=
8}` (line 833) and appends one model; the per-row select
(`handleCouncilModelChange`) replaces the entry at the row's index.  A
disabled button leaves the list unchanged. -/

inductive CouncilOp
  | addMember (modelId : List Char)
  | removeMember (idx : Nat)
  | changeMember (idx : Nat) (modelId : List Char)

/-- One settings-UI action on the council list; `availCount` embeds
`filteredModels.length`. -/
def councilStep (availCount : Nat) (council : List (List Char)) :
    CouncilOp → List (List Char)
  | CouncilOp.addMember m =>
      if 0 < availCount ∧ council.length < 8 then council ++ [m] else council
  | CouncilOp.removeMember i =>
      if 2 < council.length then council.eraseIdx i else council
  | CouncilOp.changeMember i m => council.set i m

/-- The council list after a sequence of UI actions. -/
def councilRun (availCount : Nat) (c0 : List (List Char))
    (ops : List CouncilOp) : List (List Char) :=
  ops.foldl (councilStep availCount) c0

theorem councilStep_size {availCount : Nat} {c : List (List Char)}
    (op : CouncilOp) (h2 : 2 ≤ c.length) (h8 : c.length ≤ 8) :
    2 ≤ (councilStep availCount c op).length ∧
      (councilStep availCount c op).length ≤ 8 := by
  cases op with
  | addMember m =>
    simp only [councilStep]
    split
    · simp; omega
    · exact ⟨h2, h8⟩
  | removeMember i =>
    simp only [councilStep]
    split
    · rw [List.length_eraseIdx]
      split <;> constructor <;> omega
    · exact ⟨h2, h8⟩
  | changeMember i m =>
    simp only [councilStep, List.length_set]
    exact ⟨h2, h8⟩

/-- C6: starting from any council with between 2 and 8 members, every
configuration reachable through the settings-UI actions (add, remove,
per-row change) keeps its size in [2, 8]: the remove button is disabled at
2 or fewer members and the add button at 8 or more. -/
theorem council_size_invariant (availCount : Nat) (c0 : List (List Char))
    (ops : List CouncilOp) (h2 : 2 ≤ c0.length) (h8 : c0.length ≤ 8) :
    2 ≤ (councilRun availCount c0 ops).length ∧
      (councilRun availCount c0 ops).length ≤ 8 := by
  induction ops generalizing c0 with
  | nil => exact ⟨h2, h8⟩
  | cons op ops ih =>
    have hstep := @councilStep_size availCount c0 op h2 h8
    exact ih (councilStep availCount c0 op) hstep.1 hstep.2

/-- Witness for C6: a concrete 2-member council stays within bounds after
an add followed by a remove. -/
theorem council_size_invariant_witness :
    2 ≤ (councilRun 1 [['a'], ['b']]
          [CouncilOp.addMember ['c'], CouncilOp.removeMember 0]).length ∧
      (councilRun 1 [['a'], ['b']]
          [CouncilOp.addMember ['c'], CouncilOp.removeMember 0]).length ≤ 8 :=
  council_size_invariant 1 [['a'], ['b']]
    [CouncilOp.addMember ['c'], CouncilOp.removeMember 0] (by decide) (by decide)

/-! ### Full-content slider (Settings.jsx, lines 1117-1128) -/

/-- The HTML range input with `min="0"` and `max="5"`: the browser clamps
the control's value into that range, and the `onChange` handler stores
`parseInt(e.target.value, 10)`, an integer. -/
def sliderClamp (v : Int) : Int := max 0 (min 5 v)

/-- The component state for `full_content_results`: loaded as
`data.full_content_results ?? 3` (line 105) and afterwards rewritten only
by slider changes; `handleSave` persists the current state. -/
def fullContentAfter (stored : Option Int) (changes : List Int) : Int :=
  changes.foldl (fun _ v => sliderClamp v) (Option.getD stored 3)

theorem fullContentAfter_bounds_aux (changes : List Int) (init : Int)
    (h0 : 0 ≤ init) (h5 : init ≤ 5) :
    0 ≤ changes.foldl (fun _ v => sliderClamp v) init ∧
      changes.foldl (fun _ v => sliderClamp v) init ≤ 5 := by
  induction changes generalizing init with
  | nil => exact ⟨h0, h5⟩
  | cons v vs ih =>
    have hc : 0 ≤ sliderClamp v ∧ sliderClamp v ≤ 5 := by
      unfold sliderClamp; constructor <;> omega
    exact ih (sliderClamp v) hc.1 hc.2

/-- C7: the slider keeps the content-fetch count in [0, 5]: any slider
change stores an integer in that range, and any configuration saved from
an in-range stored value (or from the default 3 when none is stored)
remains in [0, 5]. -/
theorem full_content_results_bounds :
    (∀ v : Int, 0 ≤ sliderClamp v ∧ sliderClamp v ≤ 5) ∧
    (∀ changes : List Int, 0 ≤ fullContentAfter none changes ∧
      fullContentAfter none changes ≤ 5) ∧
    (∀ (s : Int) (changes : List Int), 0 ≤ s → s ≤ 5 →
      0 ≤ fullContentAfter (some s) changes ∧
        fullContentAfter (some s) changes ≤ 5) := by
  refine ⟨?_, ?_, ?_⟩
  · intro v; unfold sliderClamp; constructor <;> omega
  · intro changes
    exact fullContentAfter_bounds_aux changes 3 (by omega) (by omega)
  · intro s changes h0 h5
    exact fullContentAfter_bounds_aux changes s h0 h5

/-- Witness for C7: a concrete save after slider changes, from a stored
value of 4. -/
theorem full_content_results_bounds_witness :
    0 ≤ fullContentAfter (some 4) [9, -2, 7] ∧
      fullContentAfter (some 4) [9, -2, 7] ≤ 5 :=
  full_content_results_bounds.2.2 4 [9, -2, 7] (by decide) (by decide)

/-! ### Stage dispatch batching

Modelled from the spec: the orchestrator's dispatch loop is not among the
checked sources.  Spec §5: all member dispatches within a stage run
concurrently, capped to batches of at most 3 simultaneous dispatches when
the member count is 6 or more; the settings UI announces exactly this
behaviour (Settings.jsx, lines 837-841). -/

/-- Chop a list into chunks of three. -/
def chunk3 {α : Type} : List α → List (List α)
  | [] => []
  | a :: b :: c :: rest => [a, b, c] :: chunk3 rest
  | l => [l]

theorem chunk3_mem_length {α : Type} :
    ∀ (l : List α), ∀ b ∈ chunk3 l, b.length ≤ 3
  | [] => by simp [chunk3]
  | [a] => by simp [chunk3]
  | [a, b] => by simp [chunk3]
  | a :: b :: c :: rest => by
    intro x hx
    simp only [chunk3, List.mem_cons] at hx
    rcases hx with h | h
    · simp [h]
    · exact chunk3_mem_length rest x h

theorem chunk3_flatten {α : Type} : ∀ (l : List α), (chunk3 l).flatten = l
  | [] => by simp [chunk3]
  | [a] => by simp [chunk3]
  | [a, b] => by simp [chunk3]
  | a :: b :: c :: rest => by simp [chunk3, chunk3_flatten rest]

/-- Modelled from the spec: member dispatches within a stage run as one
concurrent batch, except that councils of 6 or more members are processed
in batches of at most 3 (rate-limit protection). -/
def dispatchBatches (members : List (List Char)) : List (List (List Char)) :=
  if 6 ≤ members.length then chunk3 members else [members]

/-- C8: with 6 or more members every batch holds at most 3 dispatches and
no member is dropped; with fewer than 6 members all dispatches form a
single concurrent batch. -/
theorem dispatch_batching_correct :
    (∀ members : List (List Char), 6 ≤ members.length →
      ∀ b ∈ dispatchBatches members, b.length ≤ 3) ∧
    (∀ members : List (List Char), members.length < 6 →
      dispatchBatches members = [members]) ∧
    (∀ members : List (List Char), (dispatchBatches members).flatten = members) := by
  refine ⟨?_, ?_, ?_⟩
  · intro members h6 b hb
    unfold dispatchBatches at hb
    rw [if_pos h6] at hb
    exact chunk3_mem_length members b hb
  · intro members h6
    unfold dispatchBatches
    rw [if_neg (by omega)]
  · intro members
    unfold dispatchBatches
    split
    · exact chunk3_flatten members
    · simp

/-- Witness for C8: a 6-member council is processed in batches of 3, and a
2-member council in a single batch. -/
theorem dispatch_batching_correct_witness :
    (['a'] :: [['b'], ['c']]).length ≤ 3 ∧
      dispatchBatches [['a'], ['b']] = [[['a'], ['b']]] :=
  ⟨dispatch_batching_correct.1 [['a'], ['b'], ['c'], ['d'], ['e'], ['f']]
      (by decide) (['a'] :: [['b'], ['c']]) (by decide),
    dispatch_batching_correct.2.1 [['a'], ['b']] (by decide)⟩

/-! ### Stage-2 ranking text parsing

Modelled from the spec: `RankingAggregator.parse` is not among the checked
sources (spec §4.4, CHANGELOG "Stage 2 Ranking Format"): locate a
case-insensitive "FINAL RANKING" marker; read the numbered lines that
follow, extracting the referenced labels; if the marker is missing or
yields no labels, fall back to scanning the whole text for
"Response <label>" occurrences in order of first appearance,
deduplicated. -/

/-- Whether `lit` occurs as a contiguous substring. -/
def containsLit (lit : List Char) : List Char → Bool
  | [] => lit.isEmpty
  | c :: cs => (dropLiteral lit (c :: cs)).isSome || containsLit lit cs

/-- Case-insensitive test for the "FINAL RANKING" marker on one line. -/
def markerLine (line : List Char) : Bool :=
  containsLit ("FINAL RANKING".data) (line.map Char.toUpper)

def splitLinesGo (acc : List Char) : List Char → List (List Char)
  | [] => [acc.reverse]
  | c :: cs =>
    if c = '\n' then acc.reverse :: splitLinesGo [] cs
    else splitLinesGo (c :: acc) cs

/-- Split a text into its lines. -/
def splitLines (cs : List Char) : List (List Char) :=
  splitLinesGo [] cs

def isUpperAlpha (c : Char) : Bool := 'A' ≤ c && c ≤ 'Z'

/-- All labels referenced as "Response <label>", in order of first
appearance: one label per position at which "Response " followed by an
upper-case letter occurs. -/
def extractResponseLabels : List Char → List Char
  | [] => []
  | c :: cs' =>
    match dropLiteral ("Response ".data) (c :: cs') with
    | some (x :: _) =>
      if isUpperAlpha x then x :: extractResponseLabels cs'
      else extractResponseLabels cs'
    | _ => extractResponseLabels cs'

/-- Keep the first occurrence of each label, dropping later duplicates. -/
def dedupGo (seen : List Char) : List Char → List Char
  | [] => []
  | c :: cs =>
    if c ∈ seen then dedupGo seen cs else c :: dedupGo (c :: seen) cs

def dedupKeepFirst (l : List Char) : List Char :=
  dedupGo [] l

/-- A line counts as numbered when its first non-blank character is a
digit. -/
def lineIsNumbered (line : List Char) : Bool :=
  match line.dropWhile isWs with
  | c :: _ => c.isDigit
  | [] => false

/-- Modelled from the spec: `parse(rawText) -> ordered label list`
(spec §4.4). -/
def numberedLineLabels (cs : List Char) (i : Nat) : List Char :=
  ((((splitLines cs).drop (i + 1)).filter lineIsNumbered).map
    extractResponseLabels).flatten

def parseRankingText (cs : List Char) : List Char :=
  match (splitLines cs).findIdx? markerLine with
  | some i =>
    if (numberedLineLabels cs i).isEmpty
    then dedupKeepFirst (extractResponseLabels cs)
    else dedupKeepFirst (numberedLineLabels cs i)
  | none => dedupKeepFirst (extractResponseLabels cs)

theorem dedupGo_mem {x : Char} : ∀ (seen l : List Char),
    x ∈ dedupGo seen l ↔ x ∈ l ∧ x ∉ seen := by
  intro seen l
  induction l generalizing seen with
  | nil => simp [dedupGo]
  | cons c cs ih =>
    by_cases hc : c ∈ seen
    · rw [dedupGo, if_pos hc, ih]
      constructor
      · rintro ⟨h1, h2⟩; exact ⟨List.mem_cons_of_mem _ h1, h2⟩
      · rintro ⟨h1, h2⟩
        rcases List.mem_cons.mp h1 with rfl | h1
        · exact absurd hc h2
        · exact ⟨h1, h2⟩
    · rw [dedupGo, if_neg hc]
      constructor
      · intro h
        rcases List.mem_cons.mp h with rfl | h
        · exact ⟨List.mem_cons_self _ _, hc⟩
        · have := (ih (c :: seen)).mp h
          refine ⟨List.mem_cons_of_mem _ this.1, ?_⟩
          intro hx
          exact this.2 (List.mem_cons_of_mem _ hx)
      · rintro ⟨h1, h2⟩
        rcases List.mem_cons.mp h1 with rfl | h1
        · exact List.mem_cons_self _ _
        · by_cases hxc : x = c
          · subst hxc; exact List.mem_cons_self _ _
          · refine List.mem_cons_of_mem _ ((ih (c :: seen)).mpr ⟨h1, ?_⟩)
            intro hx
            rcases List.mem_cons.mp hx with h | h
            · exact hxc h
            · exact h2 h

theorem dedupGo_nodup : ∀ (seen l : List Char), (dedupGo seen l).Nodup := by
  intro seen l
  induction l generalizing seen with
  | nil => simp [dedupGo]
  | cons c cs ih =>
    by_cases hc : c ∈ seen
    · rw [dedupGo, if_pos hc]; exact ih seen
    · rw [dedupGo, if_neg hc]
      refine List.nodup_cons.mpr ⟨?_, ih (c :: seen)⟩
      intro hmem
      exact ((dedupGo_mem (c :: seen) cs).mp hmem).2 (List.mem_cons_self _ _)

theorem dedupGo_sublist : ∀ (seen l : List Char), (dedupGo seen l).Sublist l := by
  intro seen l
  induction l generalizing seen with
  | nil => simp [dedupGo]
  | cons c cs ih =>
    by_cases hc : c ∈ seen
    · rw [dedupGo, if_pos hc]; exact (ih seen).cons c
    · rw [dedupGo, if_neg hc]; exact (ih (c :: seen)).cons₂ c

/-- C4: a raw ranking text with a case-insensitive "FINAL RANKING" marker
followed by numbered lines yields the referenced labels in the numbered
order (spec example: lines "1. Response B", "2. Response A" yield
[B, A]); a text in which no line carries the marker falls back to the
labels of all "Response <label>" occurrences in order of first appearance,
deduplicated — the deduplication keeps the first occurrences in order (the
result is a duplicate-free sublist of the scan with the same members). -/
theorem parse_ranking_correct :
    (∀ cs, (splitLines cs).findIdx? markerLine = none →
      parseRankingText cs = dedupKeepFirst (extractResponseLabels cs)) ∧
    (∀ l, (dedupKeepFirst l).Nodup ∧ (dedupKeepFirst l).Sublist l ∧
      ∀ x, x ∈ dedupKeepFirst l ↔ x ∈ l) ∧
    parseRankingText
      ("Here are my evaluations.\n\nFINAL RANKING:\n1. Response B\n2. Response A".data) =
      ['B', 'A'] ∧
    parseRankingText
      ("prose mentioning Response A then Response B, no marker".data) =
      ['A', 'B'] := by
  refine ⟨?_, ?_, ?_, ?_⟩
  · intro cs h
    unfold parseRankingText
    rw [h]
  · intro l
    refine ⟨dedupGo_nodup [] l, dedupGo_sublist [] l, ?_⟩
    intro x
    rw [dedupKeepFirst, dedupGo_mem]
    simp
  · decide
  · decide

/-- Witness for C4: a concrete marker-free text takes the fallback path. -/
theorem parse_ranking_correct_witness :
    parseRankingText ("I prefer Response C over Response A and Response C.".data) =
      dedupKeepFirst (extractResponseLabels
        ("I prefer Response C over Response A and Response C.".data)) :=
  parse_ranking_correct.1
    ("I prefer Response C over Response A and Response C.".data) (by decide)

/-! ### Ranking aggregation

Modelled from the spec: `RankingAggregator.aggregate` is not among the
checked sources (spec §4.4): for each rater with N ranked items the label
at (1-based) position p scores N − p; scores sum across raters; ties break
first by count of first-place votes, then by a deterministic fallback
(embedded here as alphabetical label order); members never ranked score 0
and sort last; labels come from the A, B, C, … alphabet issued by the
anonymization mapper. -/

/-- Declarative per-rater contribution: N − p summed over the (1-based)
positions p at which the label appears in the rater's list of N items. -/
def contribution (r : List Char) (l : Char) : Nat :=
  ((r.enum.filter (fun p => p.2 == l)).map (fun p => r.length - (p.1 + 1))).sum

/-- Declarative total score of a label: contributions summed across
raters. -/
def totalScore (rankings : List (List Char)) (l : Char) : Nat :=
  (rankings.map (fun r => contribution r l)).sum

/-- Operational score table: add points to a label's entry, appending a
fresh entry for a label not yet present. -/
def bumpScore : List (Char × Nat) → Char → Nat → List (Char × Nat)
  | [], l, pts => [(l, pts)]
  | p :: rest, l, pts =>
    if p.1 = l then (p.1, p.2 + pts) :: rest else p :: bumpScore rest l pts

/-- Operational pass over one rater's ranking: position p of N adds
N − p points to the label's entry. -/
def scoreRanking (sc : List (Char × Nat)) (r : List Char) : List (Char × Nat) :=
  r.enum.foldl (fun acc p => bumpScore acc p.2 (r.length - (p.1 + 1))) sc

/-- Operational accumulation over all raters, starting from an empty
table. -/
def allScores (rankings : List (List Char)) : List (Char × Nat) :=
  rankings.foldl scoreRanking []

/-- Score table lookup; an absent label scores 0. -/
def lookupScore : List (Char × Nat) → Char → Nat
  | [], _ => 0
  | p :: rest, x => if p.1 = x then p.2 else lookupScore rest x

/-- Number of raters placing the label first (the primary tie-break). -/
def firstPlaceVotes (rankings : List (List Char)) (l : Char) : Nat :=
  rankings.countP (fun r => r.head? == some l)

def alphabet : List Char := "ABCDEFGHIJKLMNOPQRSTUVWXYZ".data

/-- Whether at least one rater ranked the label. -/
def rankedBy (rankings : List (List Char)) (l : Char) : Bool :=
  rankings.any (fun r => decide (l ∈ r))

/-- The labels with an aggregate entry: the alphabet letters ranked by at
least one rater, enumerated canonically. -/
def labelsOf (rankings : List (List Char)) : List Char :=
  alphabet.filter (rankedBy rankings)

/-- Sort key: score, then first-place votes (both descending). -/
def scoreKey (rankings : List (List Char)) (l : Char) : Nat × Nat :=
  (totalScore rankings l, firstPlaceVotes rankings l)

/-- `keyGE a b`: `a` sorts no later than `b` (descending lexicographic). -/
def keyGE (a b : Nat × Nat) : Bool :=
  if a.1 = b.1 then decide (b.2 ≤ a.2) else decide (b.1 ≤ a.1)

def insertDesc (key : Char → Nat × Nat) (c : Char) : List Char → List Char
  | [] => [c]
  | y :: ys => if keyGE (key c) (key y) then c :: y :: ys else y :: insertDesc key c ys

def sortDesc (key : Char → Nat × Nat) : List Char → List Char
  | [] => []
  | x :: xs => insertDesc key x (sortDesc key xs)

/-- Modelled from the spec: `aggregate(rankings) -> AggregateRanking` —
label/score pairs in aggregate rank order, entries only for labels ranked
by at least one rater. -/
def aggregate (rankings : List (List Char)) : List (Char × Nat) :=
  (sortDesc (scoreKey rankings) (labelsOf rankings)).map
    (fun l => (l, lookupScore (allScores rankings) l))

/-- Modelled from the spec: the aggregate display order over a member
label universe — the aggregate entries first, members never ranked after
all of them. -/
def aggregateOrder (members : List Char) (rankings : List (List Char)) : List Char :=
  (aggregate rankings).map Prod.fst ++
    members.filter (fun l => !(rankedBy rankings l))

theorem lookupScore_bump (sc : List (Char × Nat)) (l x : Char) (pts : Nat) :
    lookupScore (bumpScore sc l pts) x =
      lookupScore sc x + (if x = l then pts else 0) := by
  induction sc with
  | nil =>
    by_cases hx : x = l
    · subst hx; simp [bumpScore, lookupScore]
    · simp [bumpScore, lookupScore, hx, Ne.symm hx]
  | cons p rest ih =>
    obtain ⟨a, s⟩ := p
    simp only [bumpScore]
    by_cases ha : a = l
    · subst ha
      rw [if_pos rfl]
      by_cases hx : a = x
      · subst hx; simp [lookupScore]
      · simp [lookupScore, hx, Ne.symm hx]
    · rw [if_neg ha]
      by_cases hx : a = x
      · subst hx
        have hxl : ¬(a = l) := ha
        simp [lookupScore, hxl]
      · simp [lookupScore, hx, ih]

theorem lookupScore_foldl_bump (ps : List (Nat × Char)) (f : Nat → Nat)
    (sc : List (Char × Nat)) (x : Char) :
    lookupScore (ps.foldl (fun acc p => bumpScore acc p.2 (f p.1)) sc) x =
      lookupScore sc x + ((ps.filter (fun p => p.2 == x)).map (fun p => f p.1)).sum := by
  induction ps generalizing sc with
  | nil => simp
  | cons p ps ih =>
    simp only [List.foldl_cons, ih, lookupScore_bump]
    by_cases hp : p.2 = x
    · simp [List.filter_cons, hp, lookupScore_bump]
      omega
    · simp [List.filter_cons, hp, lookupScore_bump, Ne.symm hp]

theorem lookupScore_scoreRanking (sc : List (Char × Nat)) (r : List Char) (x : Char) :
    lookupScore (scoreRanking sc r) x = lookupScore sc x + contribution r x := by
  unfold scoreRanking contribution
  exact lookupScore_foldl_bump r.enum (fun i => r.length - (i + 1)) sc x

theorem lookupScore_foldl_rankings (rs : List (List Char))
    (sc : List (Char × Nat)) (x : Char) :
    lookupScore (rs.foldl scoreRanking sc) x = lookupScore sc x + totalScore rs x := by
  induction rs generalizing sc with
  | nil => simp [totalScore]
  | cons r rs ih =>
    simp only [List.foldl_cons, ih, lookupScore_scoreRanking, totalScore,
      List.map_cons, List.sum_cons]
    omega

theorem lookupScore_allScores (rs : List (List Char)) (x : Char) :
    lookupScore (allScores rs) x = totalScore rs x := by
  unfold allScores
  rw [lookupScore_foldl_rankings]
  simp [lookupScore]

theorem contribution_eq_zero {r : List Char} {l : Char} (h : l ∉ r) :
    contribution r l = 0 := by
  unfold contribution
  have hfil : r.enum.filter (fun p => p.2 == l) = [] := by
    rw [List.filter_eq_nil]
    intro p hp hpl
    apply h
    have hsnd : p.2 ∈ List.map Prod.snd r.enum := List.mem_map_of_mem Prod.snd hp
    rw [List.enum_map_snd] at hsnd
    simp only [beq_iff_eq] at hpl
    exact hpl ▸ hsnd
  rw [hfil]
  rfl

theorem perm_any {α : Type} {l₁ l₂ : List α} (h : l₁.Perm l₂) (p : α → Bool) :
    l₁.any p = l₂.any p := by
  cases h2 : l₂.any p
  · rw [List.any_eq_false] at h2
    rw [List.any_eq_false]
    intro x hx
    exact h2 x (h.mem_iff.mp hx)
  · rw [List.any_eq_true] at h2 ⊢
    obtain ⟨x, hx, hpx⟩ := h2
    exact ⟨x, h.mem_iff.mpr hx, hpx⟩

theorem insertDesc_mem (key : Char → Nat × Nat) (c x : Char) :
    ∀ l : List Char, (x ∈ insertDesc key c l ↔ x = c ∨ x ∈ l) := by
  intro l
  induction l with
  | nil => simp [insertDesc]
  | cons y ys ih =>
    unfold insertDesc
    split
    · simp
    · simp only [List.mem_cons, ih]
      tauto

theorem sortDesc_mem (key : Char → Nat × Nat) (x : Char) :
    ∀ l : List Char, (x ∈ sortDesc key l ↔ x ∈ l) := by
  intro l
  induction l with
  | nil => simp [sortDesc]
  | cons y ys ih =>
    unfold sortDesc
    rw [insertDesc_mem, ih, List.mem_cons]

/-- C2: aggregation is commutative — permuting the order in which the
rankings are supplied leaves the aggregate ranking unchanged. -/
theorem aggregate_comm (rs1 rs2 : List (List Char)) (h : rs1.Perm rs2) :
    aggregate rs1 = aggregate rs2 := by
  have htot : ∀ l, totalScore rs1 l = totalScore rs2 l := fun l => by
    unfold totalScore
    exact (h.map (fun r => contribution r l)).sum_eq
  have hfpv : ∀ l, firstPlaceVotes rs1 l = firstPlaceVotes rs2 l := fun l =>
    h.countP_eq _
  have hrank : rankedBy rs1 = rankedBy rs2 :=
    funext fun l => perm_any h _
  have hkey : scoreKey rs1 = scoreKey rs2 :=
    funext fun l => by simp [scoreKey, htot l, hfpv l]
  have hlook : (fun l : Char => (l, lookupScore (allScores rs1) l)) =
      (fun l : Char => (l, lookupScore (allScores rs2) l)) :=
    funext fun l => by
      rw [lookupScore_allScores, lookupScore_allScores, htot l]
  unfold aggregate labelsOf
  rw [hrank, hkey, hlook]

/-- Witness for C2: swapping two concrete rankings gives the same
aggregate. -/
theorem aggregate_comm_witness :
    aggregate [['B', 'A'], ['A', 'B']] = aggregate [['A', 'B'], ['B', 'A']] :=
  aggregate_comm [['B', 'A'], ['A', 'B']] [['A', 'B'], ['B', 'A']]
    (List.Perm.swap _ _ _)

/-- C3: the operationally accumulated score of every label equals the sum
over raters of N − p (N the rater's item count, p the label's 1-based
position, one term per position at which the label appears); a member
ranked by no rater has total score 0; the aggregate carries entries
exactly for the ranked labels of the alphabet, and the aggregate display
order places every never-ranked member after all aggregate entries. -/
theorem aggregate_scores_correct :
    (∀ (rs : List (List Char)) (l : Char),
      lookupScore (allScores rs) l = totalScore rs l) ∧
    (∀ (rs : List (List Char)) (l : Char),
      rankedBy rs l = false → totalScore rs l = 0) ∧
    (∀ (rs : List (List Char)) (l : Char),
      l ∈ (aggregate rs).map Prod.fst ↔ l ∈ alphabet ∧ rankedBy rs l = true) ∧
    (∀ (members : List Char) (rs : List (List Char)),
      aggregateOrder members rs =
        (aggregate rs).map Prod.fst ++
          members.filter (fun l => !(rankedBy rs l)) ∧
      (∀ l ∈ (aggregate rs).map Prod.fst, rankedBy rs l = true) ∧
      (∀ l ∈ members.filter (fun l => !(rankedBy rs l)),
        rankedBy rs l = false)) := by
  have hmem : ∀ (rs : List (List Char)) (l : Char),
      l ∈ (aggregate rs).map Prod.fst ↔ l ∈ alphabet ∧ rankedBy rs l = true := by
    intro rs l
    unfold aggregate
    rw [List.map_map]
    have hid : (Prod.fst ∘ fun l : Char => (l, lookupScore (allScores rs) l)) = id :=
      funext fun _ => rfl
    rw [hid, List.map_id, sortDesc_mem]
    unfold labelsOf
    rw [List.mem_filter]
  refine ⟨fun rs l => lookupScore_allScores rs l, ?_, hmem, ?_⟩
  · intro rs l hr
    unfold totalScore
    apply List.sum_eq_zero
    intro x hx
    obtain ⟨r, hrmem, rfl⟩ := List.mem_map.mp hx
    apply contribution_eq_zero
    intro hmemr
    rw [rankedBy, List.any_eq_false] at hr
    have := hr r hrmem
    simp at this
    exact this hmemr
  · intro members rs
    refine ⟨rfl, ?_, ?_⟩
    · intro l hl
      exact ((hmem rs l).mp hl).2
    · intro l hl
      have := (List.mem_filter.mp hl).2
      simpa using this

/-- Witness for C3: a member absent from the single concrete ranking
scores 0. -/
theorem aggregate_scores_correct_witness :
    totalScore [['A']] 'B' = 0 :=
  aggregate_scores_correct.2.1 [['A']] 'B' (by decide)

/-! ### Anonymization mapping

Modelled from the spec: `AnonymizationMapper.assign` is not among the
checked sources (spec §4.3): labels A, B, C, … are issued only for Stage-1
members with status success, ordered by a deterministic-per-session
permutation seeded by the session id (embedded as a rotation of the
survivor list by the session seed). -/

inductive RespStatus
  | success
  | respError (kind : List Char)
deriving DecidableEq

structure StageResponse where
  memberId : List Char
  status : RespStatus
deriving DecidableEq

def isSuccess (r : StageResponse) : Bool :=
  r.status == RespStatus.success

/-- The Stage-1 members with status success, in stage order. -/
def survivors (stage1 : List StageResponse) : List (List Char) :=
  (stage1.filter isSuccess).map StageResponse.memberId

/-- Modelled from the spec: the member ↔ label assignment — the survivor
list under the session permutation, paired with the labels A, B, C, …. -/
def assignLabels (sessionSeed : Nat) (memberIds : List (List Char)) :
    List (List Char × Char) :=
  (memberIds.rotate sessionSeed).zip (alphabet.take memberIds.length)

/-- The Stage-2 label set of a session. -/
def stage2Labels (sessionSeed : Nat) (stage1 : List StageResponse) : List Char :=
  (assignLabels sessionSeed (survivors stage1)).map Prod.snd

/-- The members that received a Stage-2 label. -/
def stage2Members (sessionSeed : Nat) (stage1 : List StageResponse) :
    List (List Char) :=
  (assignLabels sessionSeed (survivors stage1)).map Prod.fst

/-- C1: the Stage-2 labelling is a bijection between the Stage-1 members
with status success and the label set: the labelled members are exactly
the survivors (as a permutation, hence the same set), the label set is
exactly A, B, C, … up to the survivor count, and both sides of the
assignment are duplicate-free, so each label determines one member and
each member one label. -/
theorem stage2_label_bijection (seed : Nat) (stage1 : List StageResponse)
    (hn : (survivors stage1).Nodup) (hlen : (survivors stage1).length ≤ 26) :
    (stage2Members seed stage1).Perm (survivors stage1) ∧
    stage2Labels seed stage1 = alphabet.take (survivors stage1).length ∧
    (stage2Members seed stage1).Nodup ∧
    (stage2Labels seed stage1).Nodup ∧
    (stage2Members seed stage1).length = (stage2Labels seed stage1).length := by
  have halpha : alphabet.length = 26 := by decide
  have htake : (alphabet.take (survivors stage1).length).length =
      (survivors stage1).length := by
    rw [List.length_take, halpha]
    omega
  have hrot : ((survivors stage1).rotate seed).length = (survivors stage1).length :=
    List.length_rotate _ _
  have hfst : stage2Members seed stage1 = (survivors stage1).rotate seed := by
    unfold stage2Members assignLabels
    exact List.map_fst_zip _ _ (by rw [htake, hrot])
  have hsnd : stage2Labels seed stage1 = alphabet.take (survivors stage1).length := by
    unfold stage2Labels assignLabels
    exact List.map_snd_zip _ _ (by rw [htake, hrot])
  have hperm : (stage2Members seed stage1).Perm (survivors stage1) := by
    rw [hfst]; exact List.rotate_perm _ _
  refine ⟨hperm, hsnd, ?_, ?_, ?_⟩
  · exact hperm.nodup_iff.mpr hn
  · rw [hsnd]
    exact (List.take_sublist _ _).nodup (by decide)
  · rw [hsnd, htake, hfst, hrot]

/-- Witness for C1: a concrete three-member session with one error. -/
theorem stage2_label_bijection_witness :
    (stage2Members 5 [⟨['m', '1'], RespStatus.success⟩,
        ⟨['m', '2'], RespStatus.respError ['t', 'o']⟩,
        ⟨['m', '3'], RespStatus.success⟩]).Perm
      (survivors [⟨['m', '1'], RespStatus.success⟩,
        ⟨['m', '2'], RespStatus.respError ['t', 'o']⟩,
        ⟨['m', '3'], RespStatus.success⟩]) ∧
    stage2Labels 5 [⟨['m', '1'], RespStatus.success⟩,
        ⟨['m', '2'], RespStatus.respError ['t', 'o']⟩,
        ⟨['m', '3'], RespStatus.success⟩] =
      alphabet.take (survivors [⟨['m', '1'], RespStatus.success⟩,
        ⟨['m', '2'], RespStatus.respError ['t', 'o']⟩,
        ⟨['m', '3'], RespStatus.success⟩]).length ∧
    (stage2Members 5 [⟨['m', '1'], RespStatus.success⟩,
        ⟨['m', '2'], RespStatus.respError ['t', 'o']⟩,
        ⟨['m', '3'], RespStatus.success⟩]).Nodup ∧
    (stage2Labels 5 [⟨['m', '1'], RespStatus.success⟩,
        ⟨['m', '2'], RespStatus.respError ['t', 'o']⟩,
        ⟨['m', '3'], RespStatus.success⟩]).Nodup ∧
    (stage2Members 5 [⟨['m', '1'], RespStatus.success⟩,
        ⟨['m', '2'], RespStatus.respError ['t', 'o']⟩,
        ⟨['m', '3'], RespStatus.success⟩]).length =
      (stage2Labels 5 [⟨['m', '1'], RespStatus.success⟩,
        ⟨['m', '2'], RespStatus.respError ['t', 'o']⟩,
        ⟨['m', '3'], RespStatus.success⟩]).length :=
  stage2_label_bijection 5
    [⟨['m', '1'], RespStatus.success⟩,
      ⟨['m', '2'], RespStatus.respError ['t', 'o']⟩,
      ⟨['m', '3'], RespStatus.success⟩]
    (by decide) (by decide)

/-! ### Hybrid web/news search

Modelled from the spec: `RetrievalEngine.search` is not among the checked
sources (spec §4.1, TEST_PLAN_SEARCH.md E4/E5): a web search is always
issued; a news search is issued iff hybrid mode is on and the classified
intent is current_event; results are tagged by their source search, merged,
deduplicated by normalized URL and truncated to the result count. -/

inductive SearchIntent
  | current_event
  | factual
  | comparison
  | research
deriving DecidableEq

inductive SourceTag
  | web
  | news
deriving DecidableEq

structure SourceDoc where
  url : List Char
  title : List Char
deriving DecidableEq

/-- Modelled from the spec: the normalized-URL deduplication key
(lower-cased, one trailing slash stripped). -/
def normalizeUrl (u : List Char) : List Char :=
  match (u.map Char.toLower).reverse with
  | '/' :: rest => rest.reverse
  | lower => lower.reverse

/-- The searches issued for one invocation. -/
def issuedSearches (hybrid : Bool) (intent : SearchIntent) : List SourceTag :=
  if hybrid && intent == SearchIntent.current_event
  then [SourceTag.web, SourceTag.news]
  else [SourceTag.web]

/-- Keep the first result for each normalized URL. -/
def dedupByUrl (seen : List (List Char)) :
    List (SourceTag × SourceDoc) → List (SourceTag × SourceDoc)
  | [] => []
  | d :: ds =>
    if normalizeUrl d.2.url ∈ seen then dedupByUrl seen ds
    else d :: dedupByUrl (normalizeUrl d.2.url :: seen) ds

/-- Modelled from the spec: the merged ranked result list — web results
always, news results only when a news search was issued, deduplicated by
normalized URL and truncated to the result count. -/
def searchMerge (hybrid : Bool) (intent : SearchIntent)
    (webResults newsResults : List SourceDoc) (resultCount : Nat) :
    List (SourceTag × SourceDoc) :=
  (dedupByUrl []
    (webResults.map (fun d => (SourceTag.web, d)) ++
      (if hybrid && intent == SearchIntent.current_event
       then newsResults.map (fun d => (SourceTag.news, d))
       else []))).take resultCount

/-- Number of news-tagged entries in a merged result list. -/
def newsCount (l : List (SourceTag × SourceDoc)) : Nat :=
  l.countP (fun d => d.1 == SourceTag.news)

theorem dedupByUrl_subset {x : SourceTag × SourceDoc} :
    ∀ (seen : List (List Char)) (l : List (SourceTag × SourceDoc)),
      x ∈ dedupByUrl seen l → x ∈ l := by
  intro seen l
  induction l generalizing seen with
  | nil => simp [dedupByUrl]
  | cons d ds ih =>
    unfold dedupByUrl
    split
    · intro h
      exact List.mem_cons_of_mem _ (ih seen h)
    · intro h
      rcases List.mem_cons.mp h with rfl | h
      · exact List.mem_cons_self _ _
      · exact List.mem_cons_of_mem _ (ih _ h)

/-- C5: a web search is always issued; a news search is issued exactly
when hybrid mode is on and the intent is current_event; consequently with
hybrid off the merged result list contains exactly zero news-tagged
entries. -/
theorem search_news_correct :
    (∀ (hybrid : Bool) (intent : SearchIntent),
      SourceTag.web ∈ issuedSearches hybrid intent) ∧
    (∀ (hybrid : Bool) (intent : SearchIntent),
      SourceTag.news ∈ issuedSearches hybrid intent ↔
        hybrid = true ∧ intent = SearchIntent.current_event) ∧
    (∀ (intent : SearchIntent) (webResults newsResults : List SourceDoc)
        (resultCount : Nat),
      newsCount (searchMerge false intent webResults newsResults resultCount) = 0) := by
  refine ⟨?_, ?_, ?_⟩
  · intro hybrid intent
    unfold issuedSearches
    split <;> simp
  · intro hybrid intent
    unfold issuedSearches
    split
    next hcond =>
      simp only [Bool.and_eq_true, beq_iff_eq] at hcond
      simp [hcond]
    next hcond =>
      simp only [Bool.and_eq_true, beq_iff_eq] at hcond
      simp only [List.mem_singleton]
      constructor
      · intro h; exact absurd h (by simp)
      · rintro ⟨h1, h2⟩; exact absurd ⟨h1, h2⟩ hcond
  · intro intent webResults newsResults resultCount
    unfold searchMerge newsCount
    rw [List.countP_eq_zero]
    intro d hd
    have hd1 : d ∈ dedupByUrl []
        (webResults.map (fun d => (SourceTag.web, d)) ++
          (if false && intent == SearchIntent.current_event
           then newsResults.map (fun d => (SourceTag.news, d))
           else [])) :=
      (List.take_sublist _ _).subset hd
    have hd2 := dedupByUrl_subset _ _ hd1
    simp only [Bool.false_and, Bool.false_eq_true, if_false, List.append_nil] at hd2
    obtain ⟨w, _, rfl⟩ := List.mem_map.mp hd2
    simp
